import Mathlib

/-!
Verification development for the eCFR analyzer.

This file gives a shallow embedding of the core of the repository:

* `generate_date_range` (src/src/api/ecrf_client.py, lines 33-72): the
  month-end snapshot-date generator.
* the tree flattener `extract_section_records` and the body joiner
  `join_p_records` (src/src/api/ecrf_client.py, lines 143-229);
* the identity derivation of `process_section_request`
  (src/src/api/ecrf_client.py, lines 269-322), including an executable
  model of the designator-extraction regular expression;
* the SQL `id` expression of the load path
  (src/src/api/db_loader.py, lines 80-101);
* the SCD Type 2 merge engine, modelled from the specification, since
  `merge_jsonl_file` is imported by the client but absent from src/.

MD5 note: the source hashes its surrogate-key strings with MD5 before
storing them.  Every claim about ids is stated "up to hash collision", so
the digest step is modelled as the identity on key strings: two ids are
equal exactly when their pre-hash key strings are equal, which is the
MD5 behaviour up to collisions.
-/

namespace ECFR

/-! ### Dates and `generate_date_range` -/

/-- A calendar date, the shallow embedding of a Python `datetime.date`
(comparison on dates is lexicographic on year, month, day). -/
structure YMDate where
  year : Nat
  month : Nat
  day : Nat
deriving DecidableEq, Repr

/-- Python `calendar.isleap`. -/
def isLeapYear (y : Nat) : Bool :=
  (y % 4 == 0 && y % 100 != 0) || (y % 400 == 0)

/-- `calendar.monthrange(y, m)[1]`: the number of days in the month. -/
def monthLength (y m : Nat) : Nat :=
  if m == 2 then (if isLeapYear y then 29 else 28)
  else if m == 4 || m == 6 || m == 9 || m == 11 then 30
  else 31

/-- Lexicographic strict order on dates, as Python compares `date`s. -/
def YMDate.lt (a b : YMDate) : Prop :=
  a.year < b.year ∨ (a.year = b.year ∧ (a.month < b.month ∨ (a.month = b.month ∧ a.day < b.day)))

/-- Lexicographic order on dates. -/
def YMDate.le (a b : YMDate) : Prop :=
  YMDate.lt a b ∨ a = b

instance (a b : YMDate) : Decidable (YMDate.lt a b) := by
  unfold YMDate.lt; exact inferInstance

instance (a b : YMDate) : Decidable (YMDate.le a b) := by
  unfold YMDate.le; exact inferInstance

/-- The month index `year * 12 + month` used by the source to step months. -/
def monthIndex (d : YMDate) : Nat := d.year * 12 + d.month

/-- The loop of `generate_date_range` (src/src/api/ecrf_client.py,
lines 54-70).  Each iteration forms the last day of the current month,
keeps it if it lies in `[start, stop]`, advances by `inc` months via
`months_total = year * 12 + month - 1 + inc`, and stops once the first
day of the next period is past `stop`.  The positivity proof for `inc`
makes the Python loop's termination explicit (with `inc = 0` the source
loop would never advance). -/
def genAux (start stop : YMDate) (inc : Nat) (hinc : 0 < inc) (y m : Nat) : List YMDate :=
  let last_date : YMDate := ⟨y, m, monthLength y m⟩
  let acc : List YMDate :=
    if YMDate.le start last_date ∧ YMDate.le last_date stop then [last_date] else []
  let mt : Nat := y * 12 + m - 1 + inc
  if YMDate.lt stop ⟨mt / 12, mt % 12 + 1, 1⟩ then acc
  else acc ++ genAux start stop inc hinc (mt / 12) (mt % 12 + 1)
termination_by stop.year * 12 + stop.month + 1 - (y * 12 + m)
decreasing_by
  simp only [YMDate.lt] at *
  omega

/-- `generate_date_range(start_date, end_date, month_increment)`
(src/src/api/ecrf_client.py, lines 33-72), with the two date strings
already parsed into `YMDate` values as `datetime.strptime` does. -/
def generate_date_range (start stop : YMDate) (inc : Nat) (hinc : 0 < inc) : List YMDate :=
  genAux start stop inc hinc start.year start.month

/-! ### The JSON tree produced by `xmltodict` and the flattener

The flattener walks Python values that are nested dicts, lists and
strings.  They are embedded as a mutual inductive family so that all
functions over them are structural (dicts keep Python's insertion
order; keys are unique). -/

mutual
/-- A Python value as seen by `extract_section_records`: a string, a
dict (ordered association list) or a list.  Scalars other than strings
do not occur in the parsed XML and are not modelled. -/
inductive JValue where
  | str : String → JValue
  | obj : JFields → JValue
  | arr : JList → JValue

/-- The ordered fields of a Python dict. -/
inductive JFields where
  | nil : JFields
  | cons : String → JValue → JFields → JFields

/-- A Python list of values. -/
inductive JList where
  | nil : JList
  | cons : JValue → JList → JList
end

deriving instance DecidableEq for JValue, JFields, JList

/-- Python `d.get(key)`: the value at the first (unique) matching key. -/
def dget : JFields → String → Option JValue
  | .nil, _ => none
  | .cons k v rest, key => if k == key then some v else dget rest key

/-- Python `d[key] = val` on an ordered dict: replaces the value in
place when the key exists, appends the binding otherwise. -/
def dinsert (key : String) (val : JValue) : JFields → JFields
  | .nil => .cons key val .nil
  | .cons k v rest => if k == key then .cons key val rest else .cons k v (dinsert key val rest)

mutual
/-- `process_item` (src/src/api/ecrf_client.py, lines 168-189): strings
are re-encoded and decoded as UTF-8 (the identity on well-formed text,
so modelled as such), dicts and lists are processed pointwise. -/
def process_item : JValue → JValue
  | .str s => .str s
  | .obj fields => .obj (process_item_fields fields)
  | .arr elems => .arr (process_item_list elems)

/-- `process_item` over the values of a dict. -/
def process_item_fields : JFields → JFields
  | .nil => .nil
  | .cons k v rest => .cons k (process_item v) (process_item_fields rest)

/-- `process_item` over the elements of a list. -/
def process_item_list : JList → JList
  | .nil => .nil
  | .cons v rest => .cons (process_item v) (process_item_list rest)
end

/-- Python `str()` as applied by the source to dict values that are
expected to be strings (`str(p)` in `join_p_records`, `str(rec[sid])`
in the identity derivation).  On strings it is the identity; the Python
repr of non-string values is not modelled (every claim quantifies over
string-valued fields). -/
def pyStr : JValue → String
  | .str s => s
  | _ => ""

/-- The string forms of the fragments of a `P` list, in order. -/
def fragStrings : JList → List String
  | .nil => []
  | .cons v rest => pyStr v :: fragStrings rest

/-- `join_p_records` (src/src/api/ecrf_client.py, lines 143-166): a copy
of the record in which a list-valued `"P"` field is replaced by its
fragments' string forms joined with a single space, and a string-valued
`"P"` field by `str` of itself; records without `"P"` are returned
unchanged. -/
def join_p_records (record : JFields) : JFields :=
  match dget record "P" with
  | none => record
  | some (.arr l) => dinsert "P" (.str (String.intercalate " " (fragStrings l))) record
  | some v => dinsert "P" (.str (pyStr v)) record

/-- The substring test `'DIV' in key` on the characters of a key. -/
def hasDIVAux : List Char → Bool
  | [] => false
  | 'D' :: 'I' :: 'V' :: _ => true
  | _ :: rest => hasDIVAux rest

/-- Python `'DIV' in key`. -/
def containsDIV (s : String) : Bool := hasDIVAux s.data

/-- The key filter of the SECTION record builder
(src/src/api/ecrf_client.py, line 220): keep keys other than
`"children"` that do not contain `"DIV"`. -/
def allowedKey (k : String) : Bool := !(k == "children") && !containsDIV k

/-- `type_val.lower()` as applied on line 215 of
src/src/api/ecrf_client.py.  The source applies `.lower()` only to a
`type_val` that passed the `isAncestorType` guard, so the embedding
matches on exactly those seven constants (and is the identity
elsewhere, a case the guard makes unreachable). -/
def lowerTypeKey : String → String
  | "TITLE" => "title"
  | "SUBTITLE" => "subtitle"
  | "CHAPTER" => "chapter"
  | "SUBCHAP" => "subchap"
  | "PART" => "part"
  | "SUBPART" => "subpart"
  | "APPENDIX" => "appendix"
  | t => t

/-- The ancestry-bearing node types (src/src/api/ecrf_client.py,
line 214). -/
def isAncestorType (t : String) : Bool :=
  t == "TITLE" || t == "SUBTITLE" || t == "CHAPTER" || t == "SUBCHAP" ||
    t == "PART" || t == "SUBPART" || t == "APPENDIX"

/-- `data.get("HEAD", data.get("@N", ""))` (src/src/api/ecrf_client.py,
line 215). -/
def headOrN (fields : JFields) : JValue :=
  match dget fields "HEAD" with
  | some v => v
  | none =>
    match dget fields "@N" with
    | some v => v
    | none => .str ""

/-- The SECTION record builder (src/src/api/ecrf_client.py,
lines 217-222): start from a copy of the branch's ancestry and assign
every allowed own field, processed by `process_item`, in field order. -/
def buildRecord (acc : JFields) : JFields → JFields
  | .nil => acc
  | .cons k v rest =>
    buildRecord (if allowedKey k then dinsert k (process_item v) acc else acc) rest

mutual
/-- `extract_section_records` (src/src/api/ecrf_client.py,
lines 194-229): walk the tree; on an ancestry-bearing dict extend a
copy of the ancestry with `HEAD` (falling back to `@N`) under the
lower-cased type; on a SECTION dict emit one record combining the
branch ancestry with the node's own allowed fields; then recurse into
all dict values that are dicts or lists, and into all list elements. -/
def extract_section_records (data : JValue) (ancestry : JFields) : List JFields :=
  match data with
  | .str _ => []
  | .arr elems => extractList elems ancestry
  | .obj fields =>
    let new_ancestry :=
      match dget fields "@TYPE" with
      | some (.str t) =>
        if isAncestorType t then dinsert (lowerTypeKey t) (headOrN fields) ancestry
        else ancestry
      | _ => ancestry
    let selfRecs :=
      match dget fields "@TYPE" with
      | some (.str t) => if t == "SECTION" then [buildRecord new_ancestry fields] else []
      | _ => []
    selfRecs ++ extractFields fields new_ancestry
termination_by structural data

/-- The `for value in data.values()` recursion of
`extract_section_records`: descend only into dict or list values. -/
def extractFields (fields : JFields) (anc : JFields) : List JFields :=
  match fields with
  | .nil => []
  | .cons _ v rest =>
    (match v with
     | .obj _ => extract_section_records v anc
     | .arr _ => extract_section_records v anc
     | _ => []) ++ extractFields rest anc
termination_by structural fields

/-- The `for item in data` recursion of `extract_section_records` on
lists. -/
def extractList (elems : JList) (anc : JFields) : List JFields :=
  match elems with
  | .nil => []
  | .cons v rest => extract_section_records v anc ++ extractList rest anc
termination_by structural elems
end

/-- A SECTION leaf for the ancestry-isolation scenario of spec.md §8:
type tag, own designator, header and body. -/
def sectionNode (n head body : String) : JValue :=
  .obj (.cons "@TYPE" (.str "SECTION")
    (.cons "@N" (.str n)
      (.cons "HEAD" (.str head)
        (.cons "P" (.str body) .nil))))

/-- A PART node for the ancestry-isolation scenario: type tag, label,
and one nested child division. -/
def partNode (label : String) (child : JValue) : JValue :=
  .obj (.cons "@TYPE" (.str "PART")
    (.cons "HEAD" (.str label)
      (.cons "DIV8" child .nil)))

/-! ### The designator-extraction regular expression

`process_section_request` (src/src/api/ecrf_client.py, lines 296-306)
matches, on the upper-cased label,

  `(?<=TITLE\s)(\S+?(?=(\\u| |-|—)))|(?<=CHAPTER\s)...|(?<=PART\s)...|(?<=SUBPART\s)...`

with `re.IGNORECASE`: the first position preceded by a keyword and one
whitespace character at which a shortest non-empty run of non-whitespace
characters is followed by a literal `\u`, a space, a hyphen, or an
em-dash.  The model below scans candidate positions left to right,
which agrees with `re.search` because no two keyword occurrences can
overlap in a way that reorders match positions. -/

/-- Python's `\s` on the character classes the source can meet. -/
def isSpaceChar (c : Char) : Bool :=
  c == ' ' || c == '\t' || c == '\n' || c == '\x0b' || c == '\x0c' || c == '\r'

/-- The lookahead `(?=(\\u| |-|—))`: the position is followed by the
two-character literal `\u` (case-insensitively, because of
`re.IGNORECASE` on the upper-cased input), a space, a hyphen, or an
em-dash. -/
def delimAt : List Char → Bool
  | [] => false
  | '\\' :: rest =>
    match rest with
    | c :: _ => c == 'u' || c == 'U'
    | [] => false
  | c :: _ => c == ' ' || c == '-' || c == '—'

/-- The lazy `\S+?` with the delimiter lookahead: the shortest non-empty
run of non-whitespace characters after which `delimAt` holds. -/
def lazyToken : List Char → Option (List Char)
  | [] => none
  | c :: rest =>
    if isSpaceChar c then none
    else if delimAt rest then some [c]
    else (lazyToken rest).map (c :: ·)

/-- Strip a literal keyword from the front of a character list. -/
def stripKeyword : List Char → List Char → Option (List Char)
  | [], l => some l
  | _ :: _, [] => none
  | k :: ks, c :: cs => if c == k then stripKeyword ks cs else none

/-- The lookbehind `(?<=KEYWORD\s)`: the suffix starts with the keyword
followed by one whitespace character; returns what follows. -/
def kwTail (kw : List Char) (l : List Char) : Option (List Char) :=
  match stripKeyword kw l with
  | some (c :: rest) => if isSpaceChar c then some rest else none
  | _ => none

/-- Any of the four keyword lookbehinds `TITLE`, `CHAPTER`, `PART`,
`SUBPART` (the input is already upper-cased, so `re.IGNORECASE` adds
nothing). -/
def afterKeyword (l : List Char) : Option (List Char) :=
  match kwTail ['T', 'I', 'T', 'L', 'E'] l with
  | some t => some t
  | none =>
    match kwTail ['C', 'H', 'A', 'P', 'T', 'E', 'R'] l with
    | some t => some t
    | none =>
      match kwTail ['P', 'A', 'R', 'T'] l with
      | some t => some t
      | none => kwTail ['S', 'U', 'B', 'P', 'A', 'R', 'T'] l

/-- `pattern.search`: the token of the leftmost full match, scanning
suffixes left to right. -/
def regexSearch : List Char → Option (List Char)
  | [] => none
  | l@(_ :: rest) =>
    match afterKeyword l with
    | some t =>
      match lazyToken t with
      | some tok => some tok
      | none => regexSearch rest
    | none => regexSearch rest

/-- Python `str.strip()` on a list of characters. -/
def trimChars (l : List Char) : List Char :=
  ((l.dropWhile isSpaceChar).reverse.dropWhile isSpaceChar).reverse

/-! ### Identity derivation of `process_section_request` -/

/-- One surrogate-key component (src/src/api/ecrf_client.py,
lines 304-305): search the upper-cased label with the pattern; the
stripped match, or the empty string when the pattern finds no match.
The derivation never raises: a malformed label degrades to `""`. -/
def extractDesignator (label : String) : String :=
  match regexSearch (label.data.map Char.toUpper) with
  | some tok => String.mk (trimChars tok)
  | none => ""

/-- The surrogate-key fields, in order (src/src/api/ecrf_client.py,
line 290). -/
def surrogate_id_fields : List String := ["title", "chapter", "part", "subpart"]

/-- The `id_parts` list (src/src/api/ecrf_client.py, lines 301-307): one
designator per surrogate field that is present on the record. -/
def id_parts (rec : JFields) : List String :=
  surrogate_id_fields.filterMap fun sid =>
    (dget rec sid).map fun v => extractDesignator (pyStr v)

/-- The pre-hash key string for `id` (src/src/api/ecrf_client.py,
line 310): the designators joined with `_`, then `_` and the record's
own `@N` designator (empty when absent). -/
def id_string (rec : JFields) : String :=
  String.intercalate "_" (id_parts rec) ++ "_" ++
    pyStr (match dget rec "@N" with | some v => v | none => .str "")

/-- The pre-hash key string for `subpart_id` (src/src/api/ecrf_client.py,
line 311): the designators joined with `_`, without `@N`. -/
def subpart_id_string (rec : JFields) : String :=
  String.intercalate "_" (id_parts rec)

/-- The MD5 hex digest, modelled as the identity on key strings (see the
header note: digest equality coincides with key-string equality up to
MD5 collisions, and every claim about ids is stated up to collision). -/
def md5 (s : String) : String := s

/-- The per-record tail of `process_section_request`
(src/src/api/ecrf_client.py, lines 291-321): assign `id` and
`subpart_id` from the hashed key strings, then join a present `P`
field. -/
def finalize_record (rec : JFields) : JFields :=
  let r₁ := dinsert "id" (.str (md5 (id_string rec))) rec
  let r₂ := dinsert "subpart_id" (.str (md5 (subpart_id_string rec))) r₁
  match dget r₂ "P" with
  | some _ => join_p_records r₂
  | none => r₂

/-- `process_section_request` (src/src/api/ecrf_client.py,
lines 269-322) after the HTTP layer: `None` from the XML fetch yields
the empty record list, otherwise every extracted section record is
finalized. -/
def process_section_request (xml : Option JValue) : List JFields :=
  match xml with
  | none => []
  | some data => (extract_section_records data .nil).map finalize_record

/-- The `id` expression of the SQL load path (src/src/api/db_loader.py,
lines 83 and 108):
`md5(concat(title, '_surrogate_key_', chapter, part, subpart, HEAD, P))`. -/
def sql_section_id (title chapter part subpart head p : String) : String :=
  md5 (title ++ "_surrogate_key_" ++ chapter ++ part ++ subpart ++ head ++ p)

/-- The `subpart_id` expression of the SQL load path
(src/src/api/db_loader.py, lines 84 and 109). -/
def sql_subpart_id (title chapter part subpart : String) : String :=
  md5 (title ++ "_surrogate_key_" ++ chapter ++ part ++ subpart)

/-! ### The SCD Type 2 merge engine

Modelled from the spec: `merge_jsonl_file` is imported by
src/src/api/ecrf_client.py (line 27) and invoked on line 398, but no
definition of it exists under src/, so the merge engine below is
modelled from spec.md §4.3 ("Operation merge(snapshot, snapshot_date,
scope_title)") and §4.4.  Dates are serial numbers (e.g. 20240131);
the history table is the list of its rows in insertion order. -/

/-- Modelled from the spec: one row of the section history table
(spec.md §3, SectionRecord versioning fields). -/
structure Row where
  id : String
  cfr_ref_title : Nat
  body : String
  p_delta_chars : Int
  valid_from : Nat
  valid_to : Nat
  is_current : Bool
  is_deleted : Bool
deriving DecidableEq, Repr

/-- Modelled from the spec: an incoming flattened snapshot record, with
the fields the merge consults (identity, title scope, body text). -/
structure SnapRecord where
  id : String
  cfr_ref_title : Nat
  body : String
deriving DecidableEq, Repr

/-- Modelled from the spec: the sentinel far-future `valid_to` of a
current row (spec.md §3: "a sentinel far-future date"). -/
def farFuture : Nat := 99991231

/-- Modelled from the spec: `compute_delta(new_body, previous_body)`
(spec.md §4.4): the character-count length difference, `0` when no
previous version exists. -/
def compute_delta (new_body : String) (previous_body : Option String) : Int :=
  match previous_body with
  | none => 0
  | some p => (new_body.length : Int) - (p.length : Int)

/-- Modelled from the spec: the current row for a logical id, if any. -/
def currentRow (h : List Row) (i : String) : Option Row :=
  h.find? fun r => r.is_current && r.id == i

/-- Modelled from the spec: how one existing row reacts to the merge,
given the snapshot record carrying its id (if any).  A current row
whose id appears with a different body is expired
(`valid_to = d`, `is_current = FALSE`; spec.md §4.3 step 3); a current
row whose id is absent from the snapshot and whose title matches the
scope is closed as deleted (spec.md §4.3 step 4); all other rows are
untouched. -/
def closeRowWith (sOpt : Option SnapRecord) (d scope : Nat) (r : Row) : Row :=
  if r.is_current then
    match sOpt with
    | some s =>
      if s.body == r.body then r
      else { r with valid_to := d, is_current := false }
    | none =>
      if r.cfr_ref_title == scope then
        { r with valid_to := d, is_current := false, is_deleted := true }
      else r
  else r

/-- Modelled from the spec: the close pass applied to a row of the
table, looking its id up in the snapshot. -/
def closeRow (snap : List SnapRecord) (d scope : Nat) (r : Row) : Row :=
  closeRowWith (snap.find? fun s => s.id == r.id) d scope r

/-- Modelled from the spec: the new version(s) contributed by one
snapshot record given the pre-merge current row for its id (spec.md
§4.3 step 2): a fresh current row when no current row exists or the
body changed, with `p_delta_chars` computed against the previous
current body; nothing when the body is unchanged. -/
def insOf (sOpt : Option SnapRecord) (d : Nat) (cur : Option Row) : List Row :=
  match sOpt with
  | none => []
  | some s =>
    match cur with
    | none => [⟨s.id, s.cfr_ref_title, s.body, compute_delta s.body none, d, farFuture, true, false⟩]
    | some r =>
      if s.body == r.body then []
      else [⟨s.id, s.cfr_ref_title, s.body, compute_delta s.body (some r.body), d, farFuture, true, false⟩]

/-- Modelled from the spec: all rows inserted by the merge, one pass
over the snapshot against the pre-merge current rows. -/
def newRows (h : List Row) (snap : List SnapRecord) (d : Nat) : List Row :=
  snap.flatMap fun s => insOf (some s) d (currentRow h s.id)

/-- Modelled from the spec: `merge(snapshot, snapshot_date, scope_title)`
(spec.md §4.3): if the snapshot has zero records the merge is skipped
and the table left untouched; otherwise the expire/delete pass and the
insert pass are applied as one transition, both reading the same
pre-merge state. -/
def merge (snap : List SnapRecord) (d scope : Nat) (h : List Row) : List Row :=
  if snap.isEmpty then h
  else (h.map (closeRow snap d scope)) ++ newRows h snap d

/-- Modelled from the spec: one (title, snapshot-date) unit of work. -/
structure MergeOp where
  snap : List SnapRecord
  snap_date : Nat
  scope : Nat
deriving DecidableEq, Repr

/-- Modelled from the spec: the history reached by running a sequence
of merges against an initially empty table. -/
def runMerges (ops : List MergeOp) : List Row :=
  ops.foldl (fun h op => merge op.snap op.snap_date op.scope h) []

/-- The version chain of one logical id: the table's rows for that id,
in insertion order. -/
def chainOf (h : List Row) (i : String) : List Row :=
  h.filter fun r => r.id == i

/-- The per-unit guard of `process_endpoint` (src/src/api/ecrf_client.py,
lines 389-404): the output file is written and `merge_jsonl_file` is
invoked only when the unit produced at least one record; an empty
record list leaves the persisted state untouched.  Returns whether a
merge was invoked, and the resulting history. -/
def process_unit (records : List SnapRecord) (d scope : Nat) (h : List Row) :
    Bool × List Row :=
  if records.isEmpty then (false, h)
  else (true, merge records d scope h)

/-! ### Invariants of the merge engine -/

/-- Bounds on a single row of a well-formed history whose merges so far
all happened on or before `dmax`. -/
def RowWF (dmax : Nat) (r : Row) : Prop :=
  r.valid_from ≤ dmax ∧ r.valid_from < r.valid_to ∧
    (r.is_current = true → r.valid_to = farFuture ∧ r.is_deleted = false) ∧
    (r.is_current = false → r.valid_to ≤ dmax)

/-- The relation between consecutive versions of one id: the earlier is
closed, validity intervals touch in order, and they are contiguous
unless the earlier version ended in a deletion. -/
def chainStep (r r' : Row) : Prop :=
  r.is_current = false ∧ r.valid_from < r'.valid_from ∧
    r.valid_to ≤ r'.valid_from ∧ (r.is_deleted = false → r.valid_to = r'.valid_from)

/-- The invariant of one id's version chain: every row is bounded, the
chain steps are well-formed, and the final version is either the
current one or a deletion marker. -/
def ChainInv (dmax : Nat) (c : List Row) : Prop :=
  (∀ r ∈ c, RowWF dmax r) ∧ List.Chain' chainStep c ∧
    (∀ r, c.getLast? = some r → r.is_current = true ∨ r.is_deleted = true)

/-! ### Basic lemmas on the ordered-dict operations -/

theorem dget_dinsert : ∀ (d : JFields) (k k' : String) (v : JValue),
    dget (dinsert k v d) k' = if k == k' then some v else dget d k'
  | .nil, k, k', v => by simp [dinsert, dget]
  | .cons k0 v0 rest, k, k', v => by
    by_cases h : k0 = k
    · subst h
      simp only [dinsert, beq_self_eq_true, if_true, dget]
      by_cases h' : k0 = k'
      · simp [h']
      · simp [h']
    · simp only [dinsert, beq_iff_eq, h, if_false, dget]
      by_cases h' : k0 = k'
      · subst h'
        simp [show ¬ k = k0 from fun hk => h hk.symm, h]
      · simp [h', dget_dinsert rest k k' v]

theorem dget_dinsert_self (k : String) (v : JValue) (d : JFields) :
    dget (dinsert k v d) k = some v := by
  simp [dget_dinsert]

theorem dget_dinsert_ne (k k' : String) (v : JValue) (d : JFields) (h : ¬ k = k') :
    dget (dinsert k v d) k' = dget d k' := by
  simp [dget_dinsert, h]

/-! ### C6: empty units never touch the database -/

/-- C6: a (title, snapshot-date) unit that yields zero extracted
records — in particular a failed or abandoned fetch, which
`process_section_request` turns into the empty record list — invokes
no merge and leaves the persisted history unchanged; the spec-modelled
merge engine itself also skips an empty snapshot instead of treating it
as "everything deleted". -/
theorem c6_empty_unit_skips_merge :
    process_section_request none = [] ∧
    (∀ d scope h, process_unit [] d scope h = (false, h)) ∧
    (∀ d scope h, merge [] d scope h = h) := by
  refine ⟨rfl, fun d scope h => rfl, fun d scope h => rfl⟩

/-! ### C3: the delta metric -/

/-- C3: `compute_delta` returns the character-count length of the new
body minus that of the previous body, and `0` when no previous version
exists; concretely, merging body `"abcde"` over a current version with
body `"abc"` stores `p_delta_chars = 2` on the new current row, and the
first-ever version of an id stores `p_delta_chars = 0`. -/
theorem c3_compute_delta :
    (∀ new_body previous_body : String,
      compute_delta new_body (some previous_body) =
        (new_body.length : Int) - (previous_body.length : Int)) ∧
    (∀ new_body : String, compute_delta new_body none = 0) ∧
    currentRow (merge [⟨"s1", 1, "abc"⟩] 20240131 1 []) "s1" =
      some ⟨"s1", 1, "abc", 0, 20240131, farFuture, true, false⟩ ∧
    currentRow
        (merge [⟨"s1", 1, "abcde"⟩] 20240229 1
          (merge [⟨"s1", 1, "abc"⟩] 20240131 1 [])) "s1" =
      some ⟨"s1", 1, "abcde", 2, 20240229, farFuture, true, false⟩ := by
  refine ⟨fun nb pb => rfl, fun nb => rfl, by decide, by decide⟩

/-! ### C7: joining multi-part bodies -/

/-- C7: for a record whose `P` field is a list of fragments, the joined
record's `P` is the fragments' string forms concatenated in order with
a single space between consecutive fragments; a string-valued `P` is
left unchanged; and `join_p_records` agrees with its input on every key
other than `P`. -/
theorem c7_join_p_records (record : JFields) :
    (∀ l, dget record "P" = some (.arr l) →
      dget (join_p_records record) "P" =
        some (.str (String.intercalate " " (fragStrings l)))) ∧
    (∀ s, dget record "P" = some (.str s) →
      dget (join_p_records record) "P" = some (.str s)) ∧
    (∀ k, ¬ k = "P" → dget (join_p_records record) k = dget record k) := by
  refine ⟨fun l hl => ?_, fun s hs => ?_, fun k hk => ?_⟩
  · simp [join_p_records, hl, dget_dinsert_self]
  · simp [join_p_records, hs, dget_dinsert_self, pyStr]
  · unfold join_p_records
    cases hP : dget record "P" with
    | none => rfl
    | some v =>
      have hne : ¬ ("P" : String) = k := fun h => hk h.symm
      cases v with
      | str s => simp [dget_dinsert_ne _ _ _ _ hne]
      | obj fields => simp [dget_dinsert_ne _ _ _ _ hne]
      | arr l => simp [dget_dinsert_ne _ _ _ _ hne]

/-- C7 witness: a concrete record with a two-fragment `P` list keeps its
`HEAD` and joins the fragments with one space. -/
theorem c7_join_p_records_witness :
    dget (join_p_records (.cons "HEAD" (.str "h")
        (.cons "P" (.arr (.cons (.str "first") (.cons (.str "second") .nil))) .nil))) "P" =
      some (.str "first second") ∧
    dget (join_p_records (.cons "HEAD" (.str "h")
        (.cons "P" (.arr (.cons (.str "first") (.cons (.str "second") .nil))) .nil))) "HEAD" =
      dget (.cons "HEAD" (.str "h")
        (.cons "P" (.arr (.cons (.str "first") (.cons (.str "second") .nil))) .nil)) "HEAD" :=
  ⟨((c7_join_p_records (.cons "HEAD" (.str "h")
        (.cons "P" (.arr (.cons (.str "first") (.cons (.str "second") .nil))) .nil))).1
      (.cons (.str "first") (.cons (.str "second") .nil)) rfl).trans (by rfl),
    (c7_join_p_records (.cons "HEAD" (.str "h")
        (.cons "P" (.arr (.cons (.str "first") (.cons (.str "second") .nil))) .nil))).2.2
      "HEAD" (by decide)⟩

/-! ### C1: content-independence of the derived id -/

/-- C1: on the flattener path the derived id key depends only on the
ancestry designators and the section's own `@N` — two records with the
same ancestry and `@N` but different `HEAD` and `P` get the same id —
while on the SQL load path of db_loader.py the id hashes `HEAD` and `P`
themselves, so the very same two records get different ids there,
contradicting the claimed content independence of every id-assigning
path. -/
theorem c1_sql_id_depends_on_content :
    id_string (.cons "title" (.str "TITLE 1—GENERAL")
      (.cons "chapter" (.str "CHAPTER I—AGENCY")
        (.cons "part" (.str "PART 100—SCOPE")
          (.cons "subpart" (.str "SUBPART A—X")
            (.cons "@TYPE" (.str "SECTION")
              (.cons "@N" (.str "100.1")
                (.cons "HEAD" (.str "§ 100.1 Old heading.")
                  (.cons "P" (.str "Old body.") .nil)))))))) =
      id_string (.cons "title" (.str "TITLE 1—GENERAL")
        (.cons "chapter" (.str "CHAPTER I—AGENCY")
          (.cons "part" (.str "PART 100—SCOPE")
            (.cons "subpart" (.str "SUBPART A—X")
              (.cons "@TYPE" (.str "SECTION")
                (.cons "@N" (.str "100.1")
                  (.cons "HEAD" (.str "§ 100.1 New heading.")
                    (.cons "P" (.str "New body.") .nil)))))))) ∧
    id_string (.cons "title" (.str "TITLE 1—GENERAL")
      (.cons "chapter" (.str "CHAPTER I—AGENCY")
        (.cons "part" (.str "PART 100—SCOPE")
          (.cons "subpart" (.str "SUBPART A—X")
            (.cons "@TYPE" (.str "SECTION")
              (.cons "@N" (.str "100.1")
                (.cons "HEAD" (.str "§ 100.1 Old heading.")
                  (.cons "P" (.str "Old body.") .nil)))))))) = "1_I_100_A_100.1" ∧
    sql_section_id "TITLE 1—GENERAL" "CHAPTER I—AGENCY" "PART 100—SCOPE" "SUBPART A—X"
        "§ 100.1 Old heading." "Old body." ≠
      sql_section_id "TITLE 1—GENERAL" "CHAPTER I—AGENCY" "PART 100—SCOPE" "SUBPART A—X"
        "§ 100.1 New heading." "New body." :=
  ⟨rfl, rfl, by decide⟩

/-! ### C8: case folding in identity derivation -/

/-- C8 counterexample: the claim that no case folding is applied is
false — the source upper-cases each label before the designator search
(`str(rec[sid]).upper()`), so two part labels that are distinct and
differ only in the case of the designator token produce the same id
key. -/
theorem c8_no_case_folding_counterexample :
    ("PART 10a—DUST" : String) ≠ "PART 10A—DUST" ∧
    "PART 10a—DUST".data.map Char.toUpper = "PART 10A—DUST".data.map Char.toUpper ∧
    id_string (.cons "title" (.str "TITLE 40—PROTECTION")
        (.cons "part" (.str "PART 10a—DUST") (.cons "@N" (.str "10.1") .nil))) =
      id_string (.cons "title" (.str "TITLE 40—PROTECTION")
        (.cons "part" (.str "PART 10A—DUST") (.cons "@N" (.str "10.1") .nil))) :=
  ⟨by decide, by decide, rfl⟩

/-- C8 (amended): identity derivation upper-cases each label before the
designator search, so designator tokens are case-folded to upper case:
two labels with the same upper-case image — in particular labels that
differ only in the letter case of a designator token — yield the same
extracted designator and the same derived id key. -/
theorem c8_case_folded_ids (l₁ l₂ : String)
    (h : l₁.data.map Char.toUpper = l₂.data.map Char.toUpper) :
    extractDesignator l₁ = extractDesignator l₂ ∧
    id_string (.cons "title" (.str "TITLE 40—PROTECTION")
        (.cons "part" (.str l₁) (.cons "@N" (.str "10.1") .nil))) =
      id_string (.cons "title" (.str "TITLE 40—PROTECTION")
        (.cons "part" (.str l₂) (.cons "@N" (.str "10.1") .nil))) := by
  have hd : extractDesignator l₁ = extractDesignator l₂ := by
    unfold extractDesignator
    rw [h]
  refine ⟨hd, ?_⟩
  simp [id_string, id_parts, surrogate_id_fields, dget, pyStr, hd]

/-- C8 witness: the amended statement applied to the concrete pair of
labels from the counterexample. -/
theorem c8_case_folded_ids_witness :
    extractDesignator "PART 10a—DUST" = extractDesignator "PART 10A—DUST" ∧
    id_string (.cons "title" (.str "TITLE 40—PROTECTION")
        (.cons "part" (.str "PART 10a—DUST") (.cons "@N" (.str "10.1") .nil))) =
      id_string (.cons "title" (.str "TITLE 40—PROTECTION")
        (.cons "part" (.str "PART 10A—DUST") (.cons "@N" (.str "10.1") .nil))) :=
  c8_case_folded_ids "PART 10a—DUST" "PART 10A—DUST" (by decide)

/-! ### C9: malformed labels degrade to empty components -/

/-- C9: when the designator pattern finds no match in a present
ancestry label the derivation does not abort (it is a total function):
the corresponding component of the joined key is the empty string, and
the record still receives both an `id` and a `subpart_id`.  Determinism
run-over-run is inherent: the derivation is a pure function of the
record. -/
theorem c9_malformed_label_empty_component (v : String)
    (h : regexSearch (v.data.map Char.toUpper) = none) :
    extractDesignator v = "" ∧
    id_string (.cons "title" (.str "TITLE 1—TEST")
        (.cons "chapter" (.str v)
          (.cons "part" (.str "PART 100—B") (.cons "@N" (.str "100.1") .nil)))) =
      "1__100_100.1" ∧
    (dget (finalize_record (.cons "title" (.str "TITLE 1—TEST")
        (.cons "chapter" (.str v)
          (.cons "part" (.str "PART 100—B") (.cons "@N" (.str "100.1") .nil))))) "id").isSome
      = true ∧
    (dget (finalize_record (.cons "title" (.str "TITLE 1—TEST")
        (.cons "chapter" (.str v)
          (.cons "part" (.str "PART 100—B")
            (.cons "@N" (.str "100.1") .nil))))) "subpart_id").isSome = true := by
  have hd : extractDesignator v = "" := by
    unfold extractDesignator
    rw [h]
  refine ⟨hd, ?_, ?_, ?_⟩
  · simp [id_string, id_parts, surrogate_id_fields, dget, pyStr, hd]
    rfl
  · simp [finalize_record, dget_dinsert, dget]
  · simp [finalize_record, dget_dinsert, dget]

/-- C9 witness: a label in which the pattern finds no designator. -/
theorem c9_malformed_label_empty_component_witness :
    extractDesignator "GARBAGE" = "" ∧
    id_string (.cons "title" (.str "TITLE 1—TEST")
        (.cons "chapter" (.str "GARBAGE")
          (.cons "part" (.str "PART 100—B") (.cons "@N" (.str "100.1") .nil)))) =
      "1__100_100.1" ∧
    (dget (finalize_record (.cons "title" (.str "TITLE 1—TEST")
        (.cons "chapter" (.str "GARBAGE")
          (.cons "part" (.str "PART 100—B") (.cons "@N" (.str "100.1") .nil))))) "id").isSome
      = true ∧
    (dget (finalize_record (.cons "title" (.str "TITLE 1—TEST")
        (.cons "chapter" (.str "GARBAGE")
          (.cons "part" (.str "PART 100—B")
            (.cons "@N" (.str "100.1") .nil))))) "subpart_id").isSome = true :=
  c9_malformed_label_empty_component "GARBAGE" (by rfl)

/-! ### C5: ancestry isolation in the flattener -/

/-- C5: the record emitted for a SECTION depends only on its own branch.
Sibling subtrees are flattened independently (first conjunct), and
flattening two sibling PART nodes, each containing one SECTION, yields
exactly two records whose `part` ancestry field is its own branch's
label — the label of the sibling appears nowhere in the other record,
so relabeling one sibling leaves the other record unchanged, and the
`part` fields differ whenever the labels differ. -/
theorem c5_ancestry_isolation (x y : JValue) (anc : JFields)
    (p₁ p₂ n₁ n₂ h₁ h₂ b₁ b₂ : String) :
    (extract_section_records (.arr (.cons x (.cons y .nil))) anc =
      extract_section_records x anc ++ extract_section_records y anc) ∧
    (extract_section_records
        (.arr (.cons (partNode p₁ (sectionNode n₁ h₁ b₁))
          (.cons (partNode p₂ (sectionNode n₂ h₂ b₂)) .nil))) .nil =
      [.cons "part" (.str p₁) (.cons "@TYPE" (.str "SECTION")
          (.cons "@N" (.str n₁) (.cons "HEAD" (.str h₁) (.cons "P" (.str b₁) .nil)))),
        .cons "part" (.str p₂) (.cons "@TYPE" (.str "SECTION")
          (.cons "@N" (.str n₂) (.cons "HEAD" (.str h₂) (.cons "P" (.str b₂) .nil))))]) ∧
    (extract_section_records
        (.arr (.cons (partNode p₁ (sectionNode n₁ h₁ b₁))
          (.cons (partNode p₂ (sectionNode n₂ h₂ b₂)) .nil))) .nil).map
        (fun r => dget r "part") = [some (.str p₁), some (.str p₂)] ∧
    (¬ p₁ = p₂ → ¬ (some (JValue.str p₁)) = some (JValue.str p₂)) := by
  refine ⟨?_, rfl, rfl, ?_⟩
  · simp [extract_section_records, extractList]
  · intro hne hsome
    exact hne (by injection hsome with h; injection h)

/-- C5 witness: the scenario at concrete labels, with distinct `part`
fields. -/
theorem c5_ancestry_isolation_witness :
    (extract_section_records
        (.arr (.cons (partNode "PART 1—FIRST" (sectionNode "1.1" "§ 1.1" "alpha"))
          (.cons (partNode "PART 2—SECOND" (sectionNode "2.2" "§ 2.2" "beta")) .nil))) .nil).map
        (fun r => dget r "part") = [some (.str "PART 1—FIRST"), some (.str "PART 2—SECOND")] ∧
    ¬ (some (JValue.str "PART 1—FIRST")) = some (JValue.str "PART 2—SECOND") :=
  ⟨(c5_ancestry_isolation (.str "") (.str "") .nil
      "PART 1—FIRST" "PART 2—SECOND" "1.1" "2.2" "§ 1.1" "§ 2.2" "alpha" "beta").2.2.1,
    (c5_ancestry_isolation (.str "") (.str "") .nil
      "PART 1—FIRST" "PART 2—SECOND" "1.1" "2.2" "§ 1.1" "§ 2.2" "alpha" "beta").2.2.2
      (by decide)⟩

/-! ### C10: the snapshot-date generator -/

theorem lt_of_monthIndex_lt (a b : YMDate) (ha : a.month ≤ 12) (hb : 1 ≤ b.month)
    (hb2 : b.month ≤ 12) (h : monthIndex a < monthIndex b) : YMDate.lt a b := by
  unfold monthIndex at h
  unfold YMDate.lt
  omega

theorem genAux_mem (start stop : YMDate) (inc : Nat) (hinc : 0 < inc) (y m : Nat)
    (hm1 : 1 ≤ m) (hm2 : m ≤ 12) :
    ∀ x ∈ genAux start stop inc hinc y m,
      x.day = monthLength x.year x.month ∧ YMDate.le start x ∧ YMDate.le x stop ∧
        1 ≤ x.month ∧ x.month ≤ 12 ∧ y * 12 + m ≤ monthIndex x := by
  intro x hx
  rw [genAux] at hx
  split at hx
  · split at hx
    · rename_i hin
      rw [List.mem_singleton] at hx
      subst hx
      exact ⟨rfl, hin.1, hin.2, hm1, hm2, Nat.le_refl _⟩
    · simp at hx
  · rw [List.mem_append] at hx
    rcases hx with hx | hx
    · split at hx
      · rename_i hin
        rw [List.mem_singleton] at hx
        subst hx
        exact ⟨rfl, hin.1, hin.2, hm1, hm2, Nat.le_refl _⟩
      · simp at hx
    · have hrec := genAux_mem start stop inc hinc
        ((y * 12 + m - 1 + inc) / 12) ((y * 12 + m - 1 + inc) % 12 + 1)
        (by omega) (by omega) x hx
      refine ⟨hrec.1, hrec.2.1, hrec.2.2.1, hrec.2.2.2.1, hrec.2.2.2.2.1, ?_⟩
      have := hrec.2.2.2.2.2
      omega
termination_by stop.year * 12 + stop.month + 1 - (y * 12 + m)
decreasing_by
  rename_i h
  simp only [YMDate.lt] at h
  omega

theorem genAux_chain (start stop : YMDate) (inc : Nat) (hinc : 0 < inc) (y m : Nat)
    (hm1 : 1 ≤ m) (hm2 : m ≤ 12) :
    List.Chain' YMDate.lt (genAux start stop inc hinc y m) := by
  rw [genAux]
  split
  · split
    · exact List.chain'_singleton _
    · exact List.chain'_nil
  · rename_i h
    rw [List.chain'_append]
    refine ⟨?_, genAux_chain start stop inc hinc _ _ (by omega) (by omega), ?_⟩
    · split
      · exact List.chain'_singleton _
      · exact List.chain'_nil
    · intro a ha b hb
      have hb' := genAux_mem start stop inc hinc
        ((y * 12 + m - 1 + inc) / 12) ((y * 12 + m - 1 + inc) % 12 + 1)
        (by omega) (by omega) b (List.mem_of_mem_head? hb)
      split at ha
      · rw [List.getLast?_singleton, Option.mem_some_iff] at ha
        subst ha
        refine lt_of_monthIndex_lt _ _ hm2 hb'.2.2.2.1 hb'.2.2.2.2.1 ?_
        have hidx := hb'.2.2.2.2.2
        simp only [monthIndex] at hidx ⊢
        omega
      · simp at ha
termination_by stop.year * 12 + stop.month + 1 - (y * 12 + m)
decreasing_by
  rename_i h
  simp only [YMDate.lt] at h
  omega

/-- C10: for valid parsed dates with `start ≤ stop` and a positive month
increment (the positivity argument makes the source loop's termination
explicit — the function below is total by well-founded recursion on the
remaining months), `generate_date_range` returns a strictly increasing
list of dates, each of which is the last day of its calendar month and
lies within `[start, stop]` inclusive. -/
theorem c10_generate_date_range (start stop : YMDate) (inc : Nat) (hinc : 0 < inc)
    (hm1 : 1 ≤ start.month) (hm2 : start.month ≤ 12) (_hrange : YMDate.le start stop) :
    List.Chain' YMDate.lt (generate_date_range start stop inc hinc) ∧
    ∀ x ∈ generate_date_range start stop inc hinc,
      x.day = monthLength x.year x.month ∧ YMDate.le start x ∧ YMDate.le x stop := by
  refine ⟨genAux_chain start stop inc hinc start.year start.month hm1 hm2, ?_⟩
  intro x hx
  have h := genAux_mem start stop inc hinc start.year start.month hm1 hm2 x hx
  exact ⟨h.1, h.2.1, h.2.2.1⟩

/-- C10 witness: January through March 2024 with a one-month step. -/
theorem c10_generate_date_range_witness :
    List.Chain' YMDate.lt (generate_date_range ⟨2024, 1, 1⟩ ⟨2024, 3, 15⟩ 1 (by decide)) ∧
    ∀ x ∈ generate_date_range ⟨2024, 1, 1⟩ ⟨2024, 3, 15⟩ 1 (by decide),
      x.day = monthLength x.year x.month ∧ YMDate.le ⟨2024, 1, 1⟩ x ∧
        YMDate.le x ⟨2024, 3, 15⟩ :=
  c10_generate_date_range ⟨2024, 1, 1⟩ ⟨2024, 3, 15⟩ 1 (by decide)
    (by decide) (by decide) (by decide)

/-! ### Lemmas on the close and insert passes -/

theorem closeRowWith_id (sOpt : Option SnapRecord) (d scope : Nat) (r : Row) :
    (closeRowWith sOpt d scope r).id = r.id := by
  unfold closeRowWith
  split
  · split
    · split <;> rfl
    · split <;> rfl
  · rfl

theorem closeRowWith_title (sOpt : Option SnapRecord) (d scope : Nat) (r : Row) :
    (closeRowWith sOpt d scope r).cfr_ref_title = r.cfr_ref_title := by
  unfold closeRowWith
  split
  · split
    · split <;> rfl
    · split <;> rfl
  · rfl

theorem closeRowWith_noncurrent (sOpt : Option SnapRecord) (d scope : Nat) (r : Row)
    (h : r.is_current = false) : closeRowWith sOpt d scope r = r := by
  unfold closeRowWith
  simp [h]

theorem closeRow_frame (snap : List SnapRecord) (d scope : Nat) (r : Row)
    (hid : ∀ s ∈ snap, ¬ s.id = r.id) (ht : ¬ r.cfr_ref_title = scope) :
    closeRow snap d scope r = r := by
  unfold closeRow
  have hfind : (snap.find? fun s => s.id == r.id) = none :=
    List.find?_eq_none.mpr fun s hs => by simpa using hid s hs
  rw [hfind]
  unfold closeRowWith
  simp [ht]

theorem insOf_mem_title (s : SnapRecord) (d : Nat) (cur : Option Row) :
    ∀ r' ∈ insOf (some s) d cur, r'.cfr_ref_title = s.cfr_ref_title := by
  intro r' h
  cases cur with
  | none =>
    rw [insOf, List.mem_singleton] at h
    subst h
    rfl
  | some r0 =>
    rw [insOf] at h
    split at h
    · simp at h
    · rw [List.mem_singleton] at h
      subst h
      rfl

theorem insOf_mem_id (s : SnapRecord) (d : Nat) (cur : Option Row) :
    ∀ r' ∈ insOf (some s) d cur, r'.id = s.id := by
  intro r' h
  cases cur with
  | none =>
    rw [insOf, List.mem_singleton] at h
    subst h
    rfl
  | some r0 =>
    rw [insOf] at h
    split at h
    · simp at h
    · rw [List.mem_singleton] at h
      subst h
      rfl

theorem newRows_cons (h : List Row) (s : SnapRecord) (t : List SnapRecord) (d : Nat) :
    newRows h (s :: t) d = insOf (some s) d (currentRow h s.id) ++ newRows h t d := by
  simp [newRows, List.flatMap_cons]

/-! ### C4: deletion scoping and the frame on other titles -/

theorem filter_map_closeRow (snap : List SnapRecord) (d scope : Nat) (h : List Row)
    (hframe : ∀ r ∈ h, ¬ r.cfr_ref_title = scope → ∀ s ∈ snap, ¬ s.id = r.id) :
    (h.map (closeRow snap d scope)).filter (fun r => !(r.cfr_ref_title == scope)) =
      h.filter (fun r => !(r.cfr_ref_title == scope)) := by
  induction h with
  | nil => rfl
  | cons r t ih =>
    have iht := ih fun r' hr' => hframe r' (List.mem_cons_of_mem _ hr')
    rw [List.map_cons, List.filter_cons, List.filter_cons]
    by_cases hp : r.cfr_ref_title = scope
    · simp only [closeRow, closeRowWith_title, hp, beq_self_eq_true, Bool.not_true,
        if_false, iht]
      simp
    · have heq : closeRow snap d scope r = r :=
        closeRow_frame snap d scope r (hframe r (List.mem_cons_self r t) hp) hp
      rw [heq]
      simp only [beq_iff_eq, hp, Bool.not_false, if_true, iht]

theorem filter_newRows (h : List Row) (snap : List SnapRecord) (d scope : Nat)
    (hTitles : ∀ s ∈ snap, s.cfr_ref_title = scope) :
    (newRows h snap d).filter (fun r => !(r.cfr_ref_title == scope)) = [] := by
  rw [List.filter_eq_nil_iff]
  intro r' hr'
  rw [newRows, List.mem_flatMap] at hr'
  obtain ⟨s, hs, hmem⟩ := hr'
  have ht := insOf_mem_title s d (currentRow h s.id) r' hmem
  simp [ht, hTitles s hs]

/-- C4: a merge scoped to a title marks as deleted exactly the current
rows of that title whose id is absent from the snapshot (second
conjunct), and rows of every other title pass through the merge
entirely unchanged (first conjunct) — given that the snapshot carries
only the scoped title's records and shares no id with other titles'
rows, as holds for the id scheme in which the title designator is part
of the id. -/
theorem c4_deletion_scoping (snap : List SnapRecord) (d scope : Nat) (h : List Row)
    (hTitles : ∀ s ∈ snap, s.cfr_ref_title = scope)
    (hframe : ∀ r ∈ h, ¬ r.cfr_ref_title = scope → ∀ s ∈ snap, ¬ s.id = r.id) :
    (merge snap d scope h).filter (fun r => !(r.cfr_ref_title == scope)) =
      h.filter (fun r => !(r.cfr_ref_title == scope)) ∧
    ∀ r ∈ h, ((closeRow snap d scope r).is_deleted = true ↔
      (r.is_deleted = true ∨ (r.is_current = true ∧ r.cfr_ref_title = scope ∧
        (snap.find? fun s => s.id == r.id) = none))) := by
  constructor
  · unfold merge
    by_cases hsnap : snap.isEmpty
    · rw [if_pos hsnap]
    · rw [if_neg hsnap, List.filter_append, filter_map_closeRow snap d scope h hframe,
        filter_newRows h snap d scope hTitles, List.append_nil]
  · intro r _hr
    unfold closeRow closeRowWith
    by_cases hc : r.is_current
    · cases hfind : (snap.find? fun s => s.id == r.id) with
      | none =>
        by_cases ht : r.cfr_ref_title = scope
        · simp [hc, ht]
        · simp [hc, ht]
      | some s =>
        by_cases hb : s.body == r.body
        · simp [hc, hb]
        · simp [hc, hb]
    · simp [Bool.not_eq_true r.is_current ▸ hc]

/-- C4 witness: with current rows for titles 1 and 2 and a snapshot
containing only title 1's section, title 2's row is untouched. -/
theorem c4_deletion_scoping_witness :
    (merge [⟨"t1s", 1, "body"⟩] 20240131 1
        [⟨"t1s", 1, "old", 0, 20231231, farFuture, true, false⟩,
          ⟨"t2s", 2, "keep", 0, 20231231, farFuture, true, false⟩]).filter
        (fun r => !(r.cfr_ref_title == 1)) =
      [⟨"t2s", 2, "keep", 0, 20231231, farFuture, true, false⟩] ∧
    ∀ r ∈ [(⟨"t1s", 1, "old", 0, 20231231, farFuture, true, false⟩ : Row),
        ⟨"t2s", 2, "keep", 0, 20231231, farFuture, true, false⟩],
      ((closeRow [⟨"t1s", 1, "body"⟩] 20240131 1 r).is_deleted = true ↔
        (r.is_deleted = true ∨ (r.is_current = true ∧ r.cfr_ref_title = 1 ∧
          (([⟨"t1s", 1, "body"⟩] : List SnapRecord).find? fun s => s.id == r.id) = none))) := by
  have h := c4_deletion_scoping [⟨"t1s", 1, "body"⟩] 20240131 1
    [⟨"t1s", 1, "old", 0, 20231231, farFuture, true, false⟩,
      ⟨"t2s", 2, "keep", 0, 20231231, farFuture, true, false⟩]
    (by decide) (by decide)
  exact ⟨h.1.trans (by decide), h.2⟩

/-! ### Per-id decomposition of the merge -/

theorem chainOf_cons (r : Row) (t : List Row) (i : String) :
    chainOf (r :: t) i = if r.id == i then r :: chainOf t i else chainOf t i := by
  simp [chainOf, List.filter_cons]

theorem chainOf_append (h₁ h₂ : List Row) (i : String) :
    chainOf (h₁ ++ h₂) i = chainOf h₁ i ++ chainOf h₂ i :=
  List.filter_append h₁ h₂

theorem chainOf_map_close (snap : List SnapRecord) (d scope : Nat) (h : List Row) (i : String) :
    chainOf (h.map (closeRow snap d scope)) i =
      (chainOf h i).map (closeRowWith (snap.find? fun s => s.id == i) d scope) := by
  induction h with
  | nil => rfl
  | cons r t ih =>
    rw [List.map_cons, chainOf_cons, chainOf_cons]
    have hid : (closeRow snap d scope r).id = r.id := closeRowWith_id _ d scope r
    rw [hid]
    by_cases hir : r.id = i
    · subst hir
      simp only [beq_self_eq_true, if_true, List.map_cons, ih]
      rfl
    · simp only [beq_iff_eq, hir, if_false, ih]

theorem chainOf_insOf (s : SnapRecord) (d : Nat) (cur : Option Row) (i : String) :
    chainOf (insOf (some s) d cur) i =
      if s.id == i then insOf (some s) d cur else [] := by
  by_cases hsi : s.id = i
  · subst hsi
    simp only [beq_self_eq_true, if_true]
    exact List.filter_eq_self.mpr fun r' hr' => by simp [insOf_mem_id s d cur r' hr']
  · simp only [beq_iff_eq, hsi, if_false]
    exact List.filter_eq_nil_iff.mpr fun r' hr' => by
      simp [insOf_mem_id s d cur r' hr', hsi]

theorem chainOf_newRows_nil (h : List Row) (t : List SnapRecord) (d : Nat) (i : String)
    (hni : ∀ s ∈ t, ¬ s.id = i) : chainOf (newRows h t d) i = [] := by
  unfold chainOf
  rw [List.filter_eq_nil_iff]
  intro r' hr'
  rw [newRows, List.mem_flatMap] at hr'
  obtain ⟨s, hs, hmem⟩ := hr'
  simp [insOf_mem_id s d _ r' hmem, hni s hs]

theorem chainOf_newRows (h : List Row) (snap : List SnapRecord) (d : Nat) (i : String)
    (hnd : (snap.map SnapRecord.id).Nodup) :
    chainOf (newRows h snap d) i =
      insOf (snap.find? fun s => s.id == i) d (currentRow h i) := by
  induction snap with
  | nil => rfl
  | cons s t ih =>
    rw [List.map_cons, List.nodup_cons] at hnd
    rw [newRows_cons, chainOf_append, chainOf_insOf, List.find?_cons]
    cases hb : (s.id == i) with
    | true =>
      have hsi : s.id = i := by simpa using hb
      subst hsi
      have ht0 : chainOf (newRows h t d) s.id = [] :=
        chainOf_newRows_nil h t d s.id fun s' hs' he =>
          hnd.1 (he ▸ List.mem_map_of_mem SnapRecord.id hs')
      simp [ht0]
    | false =>
      simpa using ih hnd.2

theorem currentRow_chain (h : List Row) (i : String) :
    currentRow h i = (chainOf h i).find? (fun r => r.is_current) := by
  induction h with
  | nil => rfl
  | cons r t ih =>
    rw [currentRow, List.find?_cons, chainOf_cons]
    cases hir : (r.id == i) with
    | true =>
      cases hc : r.is_current with
      | true => simp [List.find?_cons, hc, hir]
      | false =>
        simp only [hir, hc, Bool.false_and, Bool.and_true, if_true, List.find?_cons]
        exact ih
    | false =>
      simp only [hir, Bool.and_false, if_false]
      exact ih

theorem chainOf_merge (snap : List SnapRecord) (d scope : Nat) (h : List Row) (i : String)
    (hne : ¬ snap.isEmpty = true) (hnd : (snap.map SnapRecord.id).Nodup) :
    chainOf (merge snap d scope h) i =
      (chainOf h i).map (closeRowWith (snap.find? fun s => s.id == i) d scope) ++
        insOf (snap.find? fun s => s.id == i) d
          ((chainOf h i).find? fun r => r.is_current) := by
  unfold merge
  rw [if_neg hne, chainOf_append, chainOf_map_close,
    chainOf_newRows h snap d i hnd, currentRow_chain]

/-! ### Preservation of the chain invariant -/

theorem RowWF_mono {d₁ d₂ : Nat} (hd : d₁ ≤ d₂) {r : Row} (h : RowWF d₁ r) : RowWF d₂ r :=
  ⟨Nat.le_trans h.1 hd, h.2.1, h.2.2.1, fun hc => Nat.le_trans (h.2.2.2 hc) hd⟩

theorem ChainInv_mono {d₁ d₂ : Nat} (hd : d₁ ≤ d₂) {c : List Row} (h : ChainInv d₁ c) :
    ChainInv d₂ c :=
  ⟨fun r hr => RowWF_mono hd (h.1 r hr), h.2.1, h.2.2⟩

theorem chain'_noncurrent : ∀ (c : List Row), List.Chain' chainStep c →
    ∀ x ∈ c.dropLast, x.is_current = false
  | [], _, x, hx => by simp at hx
  | [_], _, x, hx => by simp at hx
  | r :: r' :: t, hc, x, hx => by
    rw [List.chain'_cons] at hc
    rw [show (r :: r' :: t).dropLast = r :: (r' :: t).dropLast from rfl] at hx
    rcases List.mem_cons.mp hx with hx | hx
    · subst hx
      exact hc.1.1
    · exact chain'_noncurrent (r' :: t) hc.2 x hx

theorem ChainInv_concat_cases (dmax : Nat) (c₀ : List Row) (r : Row)
    (h : ChainInv dmax (c₀ ++ [r])) :
    (∀ x ∈ c₀, x.is_current = false) ∧
    ((c₀ ++ [r]).find? (fun x => x.is_current) = if r.is_current then some r else none) := by
  have h1 : ∀ x ∈ c₀, x.is_current = false := by
    intro x hx
    exact chain'_noncurrent _ h.2.1 x (List.dropLast_concat ▸ hx)
  refine ⟨h1, ?_⟩
  rw [List.find?_append]
  have h0 : c₀.find? (fun x => x.is_current) = none :=
    List.find?_eq_none.mpr fun x hx => by simp [h1 x hx]
  rw [h0]
  by_cases hc : r.is_current <;> simp [List.find?_cons, hc]

theorem chain'_concat_congr (c₀ : List Row) (r r' : Row)
    (hfrom : r'.valid_from = r.valid_from)
    (h : List.Chain' chainStep (c₀ ++ [r])) : List.Chain' chainStep (c₀ ++ [r']) := by
  rw [List.chain'_append] at h ⊢
  refine ⟨h.1, List.chain'_singleton _, ?_⟩
  intro x hx y hy
  simp only [List.head?_cons, Option.mem_some_iff] at hy
  subst hy
  have hstep := h.2.2 x hx r (by simp)
  unfold chainStep at hstep ⊢
  rw [hfrom]
  exact hstep

theorem chain'_concat_extend (c₀ : List Row) (r a : Row)
    (h : List.Chain' chainStep (c₀ ++ [r]))
    (hra : chainStep r a) : List.Chain' chainStep (c₀ ++ [r, a]) := by
  have hre : c₀ ++ [r, a] = (c₀ ++ [r]) ++ [a] := by simp
  rw [hre, List.chain'_append]
  refine ⟨h, List.chain'_singleton _, ?_⟩
  intro x hx y hy
  rw [List.getLast?_concat] at hx
  simp only [Option.mem_some_iff] at hx
  simp only [List.head?_cons, Option.mem_some_iff] at hy
  subst hx
  subst hy
  exact hra

theorem ChainInv_singleton_new (s : SnapRecord) (d : Nat) (pd : Int) (hfar : d < farFuture) :
    ChainInv d [⟨s.id, s.cfr_ref_title, s.body, pd, d, farFuture, true, false⟩] := by
  refine ⟨?_, List.chain'_singleton _, ?_⟩
  · intro r hr
    rw [List.mem_singleton] at hr
    subst hr
    exact ⟨Nat.le_refl d, hfar, fun _ => ⟨rfl, rfl⟩, fun hcontr => by simp at hcontr⟩
  · intro r hr
    rw [List.getLast?_singleton, Option.some.injEq] at hr
    subst hr
    left
    rfl

theorem closeRowWith_current_some (sr : SnapRecord) (d scope : Nat) (r : Row)
    (hc : r.is_current = true) :
    closeRowWith (some sr) d scope r =
      if sr.body == r.body then r else { r with valid_to := d, is_current := false } := by
  unfold closeRowWith
  rw [if_pos hc]

theorem closeRowWith_current_none (d scope : Nat) (r : Row) (hc : r.is_current = true) :
    closeRowWith none d scope r =
      if r.cfr_ref_title == scope then
        { r with valid_to := d, is_current := false, is_deleted := true }
      else r := by
  unfold closeRowWith
  rw [if_pos hc]

theorem insOf_none_eq (d : Nat) (cur : Option Row) : insOf none d cur = [] := rfl

theorem insOf_some_none (sr : SnapRecord) (d : Nat) :
    insOf (some sr) d none =
      [⟨sr.id, sr.cfr_ref_title, sr.body, compute_delta sr.body none, d, farFuture,
        true, false⟩] := rfl

theorem insOf_some_some (sr : SnapRecord) (d : Nat) (r : Row) :
    insOf (some sr) d (some r) =
      if sr.body == r.body then []
      else [⟨sr.id, sr.cfr_ref_title, sr.body, compute_delta sr.body (some r.body), d,
        farFuture, true, false⟩] := rfl

theorem RowWF_new (sr : SnapRecord) (d : Nat) (pd : Int) (hfar : d < farFuture) :
    RowWF d ⟨sr.id, sr.cfr_ref_title, sr.body, pd, d, farFuture, true, false⟩ :=
  ⟨Nat.le_refl d, hfar, fun _ => ⟨rfl, rfl⟩, fun hcontr => by simp at hcontr⟩

theorem ChainInv_merge_step (sOpt : Option SnapRecord) (d scope dmax : Nat) (c : List Row)
    (hinv : ChainInv dmax c) (hd : dmax < d) (hfar : d < farFuture) :
    ChainInv d (c.map (closeRowWith sOpt d scope) ++
      insOf sOpt d (c.find? fun r => r.is_current)) := by
  rcases List.eq_nil_or_concat c with hc | ⟨c₀, r, hc⟩
  · subst hc
    cases sOpt with
    | none =>
      rw [List.map_nil, List.find?_nil, List.nil_append, insOf_none_eq]
      exact ⟨by simp, List.chain'_nil, by simp⟩
    | some sr =>
      rw [List.map_nil, List.find?_nil, List.nil_append, insOf_some_none]
      exact ChainInv_singleton_new sr d _ hfar
  · rw [List.concat_eq_append] at hc
    subst hc
    obtain ⟨h1, hfind⟩ := ChainInv_concat_cases dmax c₀ r hinv
    have hmap0 : c₀.map (closeRowWith sOpt d scope) = c₀ := by
      rw [List.map_congr_left fun x hx => closeRowWith_noncurrent sOpt d scope x (h1 x hx)]
      exact List.map_id c₀
    have hrmem : r ∈ c₀ ++ [r] := by simp
    have hrWF : RowWF dmax r := hinv.1 r hrmem
    rw [List.map_append, hmap0, List.map_singleton, hfind]
    by_cases hcur : r.is_current
    · have hdel0 : r.is_deleted = false := (hrWF.2.2.1 hcur).2
      rw [if_pos hcur]
      cases sOpt with
      | none =>
        rw [insOf_none_eq, List.append_nil, closeRowWith_current_none d scope r hcur]
        by_cases hscope : r.cfr_ref_title == scope
        · rw [if_pos hscope]
          refine ⟨?_, chain'_concat_congr c₀ r _ rfl hinv.2.1, ?_⟩
          · intro x hx
            rcases List.mem_append.mp hx with hx | hx
            · exact RowWF_mono (Nat.le_of_lt hd) (hinv.1 x (List.mem_append_left _ hx))
            · rw [List.mem_singleton] at hx
              subst hx
              exact ⟨Nat.le_of_lt (Nat.lt_of_le_of_lt hrWF.1 hd),
                Nat.lt_of_le_of_lt hrWF.1 hd, fun hcontr => by simp at hcontr,
                fun _ => Nat.le_refl d⟩
          · intro x hx
            rw [List.getLast?_concat, Option.some.injEq] at hx
            subst hx
            right
            rfl
        · rw [if_neg hscope]
          exact ChainInv_mono (Nat.le_of_lt hd) hinv
      | some sr =>
        rw [insOf_some_some, closeRowWith_current_some sr d scope r hcur]
        by_cases hb : sr.body == r.body
        · rw [if_pos hb, if_pos hb, List.append_nil]
          exact ChainInv_mono (Nat.le_of_lt hd) hinv
        · rw [if_neg hb, if_neg hb]
          have happ : c₀ ++ [{ r with valid_to := d, is_current := false }] ++
              [⟨sr.id, sr.cfr_ref_title, sr.body, compute_delta sr.body (some r.body),
                d, farFuture, true, false⟩] =
              c₀ ++ [{ r with valid_to := d, is_current := false },
                ⟨sr.id, sr.cfr_ref_title, sr.body, compute_delta sr.body (some r.body),
                  d, farFuture, true, false⟩] := by simp
          rw [happ]
          refine ⟨?_, ?_, ?_⟩
          · intro x hx
            rcases List.mem_append.mp hx with hx | hx
            · exact RowWF_mono (Nat.le_of_lt hd) (hinv.1 x (List.mem_append_left _ hx))
            · rcases List.mem_cons.mp hx with hx | hx
              · subst hx
                exact ⟨Nat.le_of_lt (Nat.lt_of_le_of_lt hrWF.1 hd),
                  Nat.lt_of_le_of_lt hrWF.1 hd, fun hcontr => by simp at hcontr,
                  fun _ => Nat.le_refl d⟩
              · rw [List.mem_singleton] at hx
                subst hx
                exact RowWF_new sr d _ hfar
          · refine chain'_concat_extend c₀ _ _
              (chain'_concat_congr c₀ r _ rfl hinv.2.1) ?_
            exact ⟨rfl, Nat.lt_of_le_of_lt hrWF.1 hd, Nat.le_refl d, fun _ => rfl⟩
          · intro x hx
            have hre : c₀ ++ [{ r with valid_to := d, is_current := false },
                ⟨sr.id, sr.cfr_ref_title, sr.body, compute_delta sr.body (some r.body),
                  d, farFuture, true, false⟩] =
                (c₀ ++ [{ r with valid_to := d, is_current := false }]) ++
                  [⟨sr.id, sr.cfr_ref_title, sr.body, compute_delta sr.body (some r.body),
                    d, farFuture, true, false⟩] := by simp
            rw [hre, List.getLast?_concat, Option.some.injEq] at hx
            subst hx
            left
            rfl
    · have hdel : r.is_deleted = true := by
        rcases hinv.2.2 r (List.getLast?_concat c₀) with hcontr | hdel
        · exact absurd hcontr hcur
        · exact hdel
      have hcur' : r.is_current = false := by
        simpa using hcur
      rw [if_neg hcur, closeRowWith_noncurrent sOpt d scope r hcur']
      cases sOpt with
      | none =>
        rw [insOf_none_eq, List.append_nil]
        exact ChainInv_mono (Nat.le_of_lt hd) hinv
      | some sr =>
        rw [insOf_some_none]
        have happ : c₀ ++ [r] ++
            [⟨sr.id, sr.cfr_ref_title, sr.body, compute_delta sr.body none,
              d, farFuture, true, false⟩] =
            c₀ ++ [r, ⟨sr.id, sr.cfr_ref_title, sr.body, compute_delta sr.body none,
              d, farFuture, true, false⟩] := by simp
        rw [happ]
        refine ⟨?_, ?_, ?_⟩
        · intro x hx
          rcases List.mem_append.mp hx with hx | hx
          · exact RowWF_mono (Nat.le_of_lt hd) (hinv.1 x (List.mem_append_left _ hx))
          · rcases List.mem_cons.mp hx with hx | hx
            · subst hx
              exact RowWF_mono (Nat.le_of_lt hd) hrWF
            · rw [List.mem_singleton] at hx
              subst hx
              exact RowWF_new sr d _ hfar
        · refine chain'_concat_extend c₀ r _ hinv.2.1 ?_
          exact ⟨hcur', Nat.lt_of_le_of_lt hrWF.1 hd,
            Nat.le_of_lt (Nat.lt_of_le_of_lt (hrWF.2.2.2 hcur') hd),
            fun hcontr => absurd hdel (by simp [hcontr])⟩
        · intro x hx
          have hre : c₀ ++ [r, ⟨sr.id, sr.cfr_ref_title, sr.body, compute_delta sr.body none,
              d, farFuture, true, false⟩] =
              (c₀ ++ [r]) ++ [⟨sr.id, sr.cfr_ref_title, sr.body, compute_delta sr.body none,
                d, farFuture, true, false⟩] := by simp
          rw [hre, List.getLast?_concat, Option.some.injEq] at hx
          subst hx
          left
          rfl

theorem runMerges_chainInv : ∀ (ops : List MergeOp) (h : List Row) (dmax : Nat),
    (∀ i, ChainInv dmax (chainOf h i)) →
    List.Chain (fun a b => a < b) dmax (ops.map MergeOp.snap_date) →
    (∀ op ∈ ops, op.snap_date < farFuture ∧ (op.snap.map SnapRecord.id).Nodup) →
    ∃ dmax', ∀ i,
      ChainInv dmax'
        (chainOf (ops.foldl (fun h op => merge op.snap op.snap_date op.scope h) h) i) := by
  intro ops
  induction ops with
  | nil =>
    intro h dmax hinv _ _
    exact ⟨dmax, hinv⟩
  | cons op rest ih =>
    intro h dmax hinv hch hops
    rw [List.map_cons, List.chain_cons] at hch
    rw [List.foldl_cons]
    refine ih (merge op.snap op.snap_date op.scope h) op.snap_date ?_ hch.2
      (fun o ho => hops o (List.mem_cons_of_mem _ ho))
    intro i
    by_cases hne : op.snap.isEmpty
    · have hskip : merge op.snap op.snap_date op.scope h = h := by
        unfold merge
        rw [if_pos hne]
      rw [hskip]
      exact ChainInv_mono (Nat.le_of_lt hch.1) (hinv i)
    · rw [chainOf_merge op.snap op.snap_date op.scope h i hne
        (hops op (List.mem_cons_self op rest)).2]
      exact ChainInv_merge_step _ _ _ _ _ (hinv i) hch.1
        (hops op (List.mem_cons_self op rest)).1

/-! ### Extracting the claimed invariants from the chain invariant -/

theorem chain'_rel_tail : ∀ (r : Row) (t : List Row), List.Chain' chainStep (r :: t) →
    ∀ b ∈ t, r.valid_to ≤ b.valid_from ∧ r.valid_from < b.valid_from
  | _, [], _, b, hb => by simp at hb
  | r, r' :: t', hc, b, hb => by
    rw [List.chain'_cons] at hc
    rcases List.mem_cons.mp hb with hb | hb
    · subst hb
      exact ⟨hc.1.2.2.1, hc.1.2.1⟩
    · have hrec := chain'_rel_tail r' t' hc.2 b hb
      have h1 : r.valid_to ≤ r'.valid_from := hc.1.2.2.1
      have h2 : r.valid_from < r'.valid_from := hc.1.2.1
      exact ⟨by omega, by omega⟩

theorem chain'_pairwise (c : List Row) (hc : List.Chain' chainStep c) :
    List.Pairwise (fun a b => a.valid_to ≤ b.valid_from) c := by
  induction c with
  | nil => exact List.Pairwise.nil
  | cons r t ih =>
    refine List.Pairwise.cons (fun b hb => (chain'_rel_tail r t hc b hb).1) (ih hc.tail)

theorem current_count (dmax : Nat) (c : List Row) (hinv : ChainInv dmax c) :
    (c.filter fun r => r.is_current).length ≤ 1 := by
  rcases List.eq_nil_or_concat c with hc | ⟨c₀, r, hc⟩
  · subst hc
    simp
  · rw [List.concat_eq_append] at hc
    subst hc
    obtain ⟨h1, _⟩ := ChainInv_concat_cases dmax c₀ r hinv
    rw [List.filter_append]
    have h0 : c₀.filter (fun r => r.is_current) = [] :=
      List.filter_eq_nil_iff.mpr fun x hx => by simp [h1 x hx]
    rw [h0, List.nil_append]
    by_cases hc : r.is_current <;> simp [List.filter_cons, hc]

theorem deleted_no_current (dmax : Nat) (c : List Row) (hinv : ChainInv dmax c) :
    ∀ r, c.getLast? = some r → r.is_deleted = true → ∀ x ∈ c, x.is_current = false := by
  intro r hlast hdel x hx
  rcases List.eq_nil_or_concat c with hc | ⟨c₀, b, hc⟩
  · subst hc
    simp at hx
  · rw [List.concat_eq_append] at hc
    subst hc
    rw [List.getLast?_concat, Option.some.injEq] at hlast
    subst hlast
    obtain ⟨h1, _⟩ := ChainInv_concat_cases dmax c₀ _ hinv
    rcases List.mem_append.mp hx with hx | hx
    · exact h1 x hx
    · rw [List.mem_singleton] at hx
      subst hx
      by_cases hcur : x.is_current
      · have := (hinv.1 x (by simp)).2.2.1 hcur
        rw [this.2] at hdel
        simp at hdel
      · simpa using hcur

/-! ### C2: the SCD Type 2 history invariants -/

/-- C2: after any sequence of merges run against an initially empty
history with strictly increasing snapshot dates (below the far-future
sentinel) and per-snapshot distinct ids, every id's version chain
satisfies: at most one current row; pairwise non-overlapping validity
intervals; contiguous consecutive intervals except immediately after a
deletion (the claim's "from first appearance to present or to
deletion"); the current row extends to the far-future sentinel and is
not deleted; and when the last version is a deletion marker no current
row exists for that id. -/
theorem c2_scd2_invariants (ops : List MergeOp)
    (hdates : List.Chain (fun a b => a < b) 0 (ops.map MergeOp.snap_date))
    (hops : ∀ op ∈ ops, op.snap_date < farFuture ∧ (op.snap.map SnapRecord.id).Nodup)
    (i : String) :
    ((chainOf (runMerges ops) i).filter fun r => r.is_current).length ≤ 1 ∧
    (chainOf (runMerges ops) i).Pairwise (fun a b => a.valid_to ≤ b.valid_from) ∧
    List.Chain' (fun a b => a.valid_to ≤ b.valid_from ∧
      (a.is_deleted = false → a.valid_to = b.valid_from)) (chainOf (runMerges ops) i) ∧
    (∀ r ∈ chainOf (runMerges ops) i, r.is_current = true →
      r.valid_to = farFuture ∧ r.is_deleted = false) ∧
    (∀ r, (chainOf (runMerges ops) i).getLast? = some r → r.is_deleted = true →
      ∀ x ∈ chainOf (runMerges ops) i, x.is_current = false) := by
  obtain ⟨dmax', hinv⟩ := runMerges_chainInv ops [] 0
    (fun _ => ⟨by simp [chainOf], List.chain'_nil, by simp [chainOf]⟩) hdates hops
  have h : ChainInv dmax' (chainOf (runMerges ops) i) := hinv i
  refine ⟨current_count dmax' _ h, chain'_pairwise _ h.2.1, ?_,
    fun r hr hc => (h.1 r hr).2.2.1 hc, deleted_no_current dmax' _ h⟩
  exact h.2.1.imp fun a b hab => ⟨hab.2.2.1, hab.2.2.2⟩

/-- C2 witness: two merges of the same section with a body change. -/
theorem c2_scd2_invariants_witness :
    ((chainOf (runMerges [⟨[⟨"x", 1, "abc"⟩], 20240131, 1⟩,
        ⟨[⟨"x", 1, "abcde"⟩], 20240229, 1⟩]) "x").filter fun r => r.is_current).length ≤ 1 ∧
    (chainOf (runMerges [⟨[⟨"x", 1, "abc"⟩], 20240131, 1⟩,
        ⟨[⟨"x", 1, "abcde"⟩], 20240229, 1⟩]) "x").Pairwise
      (fun a b => a.valid_to ≤ b.valid_from) ∧
    List.Chain' (fun a b => a.valid_to ≤ b.valid_from ∧
      (a.is_deleted = false → a.valid_to = b.valid_from))
      (chainOf (runMerges [⟨[⟨"x", 1, "abc"⟩], 20240131, 1⟩,
        ⟨[⟨"x", 1, "abcde"⟩], 20240229, 1⟩]) "x") ∧
    (∀ r ∈ chainOf (runMerges [⟨[⟨"x", 1, "abc"⟩], 20240131, 1⟩,
        ⟨[⟨"x", 1, "abcde"⟩], 20240229, 1⟩]) "x", r.is_current = true →
      r.valid_to = farFuture ∧ r.is_deleted = false) ∧
    (∀ r, (chainOf (runMerges [⟨[⟨"x", 1, "abc"⟩], 20240131, 1⟩,
        ⟨[⟨"x", 1, "abcde"⟩], 20240229, 1⟩]) "x").getLast? = some r → r.is_deleted = true →
      ∀ x ∈ chainOf (runMerges [⟨[⟨"x", 1, "abc"⟩], 20240131, 1⟩,
        ⟨[⟨"x", 1, "abcde"⟩], 20240229, 1⟩]) "x", x.is_current = false) :=
  c2_scd2_invariants [⟨[⟨"x", 1, "abc"⟩], 20240131, 1⟩, ⟨[⟨"x", 1, "abcde"⟩], 20240229, 1⟩]
    (List.Chain.cons (by decide) (List.Chain.cons (by decide) List.Chain.nil))
    (by decide) "x"

end ECFR
